import Mathlib

/-!
Verification of the challenge-derivation and proof-compaction binaries of
`fil-proofs-bin` against their natural-language specification.

The Rust sources embedded here (shallowly, over `Nat` and `List`) are:

- `fil-proofs-bin/src/bin/snark-proof.rs` (batched Groth16 proof assembly),
- `fil-proofs-bin/src/bin/challenges.rs` (interactive challenge derivation),
- `fil-proofs-bin/src/bin/challenges-synth.rs` (synthetic challenge derivation),
- `fil-proofs-bin/src/bin/default-values.rs` (per-sector-size default parameters),
- `fil-proofs-bin/src/bin/merkle-proofs-synth-count.rs` (synthetic store counting).

Byte strings (`[u8; 32]` values such as `replica_id`, `seed`, `comm_r`) are
modelled as `List Nat`; the external keyed hash (spec section 6 lists it as a
collaborator capability) is an abstract function parameter `hash : List Nat → Nat`.
The challenge-derivation cores (`InteractivePoRep::derive`, `SynthChallenges`)
live in `storage-proofs-porep/src/stacked/vanilla/challenges.rs`, which is not
part of the shown sources (only its benches are); those definitions are
modelled from the spec and marked as such in their doc comments.
-/

/-- Embedding of `storage_proofs_core::util::NODE_SIZE` (32 bytes per node). -/
def NODE_SIZE : Nat := 32

/-- Embedding of the inline expression `(sector_size as usize) / NODE_SIZE` used by
every binary (`challenges.rs` line 42, `merkle-proofs-synth-extract.rs` line 48,
`snark-proof.rs` line 158, ...): integer division, no divisibility check. -/
def sector_nodes_of (sector_size : Nat) : Nat := sector_size / NODE_SIZE

/-- Embedding of `GROTH16_BATCH_SIZE` (`snark-proof.rs` line 33): the number of
circuits synthesized in one proving batch. -/
def GROTH16_BATCH_SIZE : Nat := 10

/-- Fuel-driven worker for `chunks`: `chunks_go bs fuel l` splits `l` into
successive blocks of `bs` elements (last block possibly shorter), provided
`l.length ≤ fuel` and `0 < bs`. Structural recursion on the fuel keeps the
definition computable by the kernel. -/
def chunks_go (bs : Nat) : Nat → List α → List (List α)
  | _, [] => []
  | 0, l => [l]
  | fuel + 1, l => l.take bs :: chunks_go bs fuel (l.drop bs)

/-- Embedding of Rust `slice::chunks(bs)` as used in `snark-proof.rs` line 205:
successive chunks of `bs` elements, the last chunk possibly shorter. -/
def chunks (bs : Nat) (l : List α) : List (List α) := chunks_go bs l.length l

/-- Embedding of `Result`'s `IntoIterator` instance: iterating a Rust `Result`
yields the `Ok` value and nothing on `Err`. This is what `Iterator::flat_map`
applies to the value returned by `create_random_proof_batch_in_priority` in
`snark-proof.rs` lines 206-212. -/
def exceptToList : Except ε α → List α
  | .ok v => [v]
  | .error _ => []

/-- Embedding of `snark-proof.rs` lines 204-213: the circuits are chunked into
batches of `bs`, each batch is handed to the external proving capability
`prove`, and the per-batch results are flattened in order. The `flat_map` over
the `Result` returned by the prover goes through `Result`'s `IntoIterator`
(`exceptToList`), and the final `.flatten()` is the inner `flatten`. -/
def groth_proofs (bs : Nat) (prove : List α → Except ε (List β)) (circuits : List α) :
    List β :=
  (((chunks bs circuits).map (fun chunk => exceptToList (prove chunk))).flatten).flatten

/-- Embedding of `snark-proof.rs` lines 215-225: each produced Groth16 proof is
serialized and re-parsed (a roundtrip that succeeds on every in-memory proof,
modelled by `Except.ok`), and the results are collected into a `Result` which
is the value `snark_proof` returns (modulo the final byte serialization). -/
def snark_proof_result (prove : List α → Except String (List β)) (circuits : List α) :
    Except String (List β) :=
  (groth_proofs GROTH16_BATCH_SIZE prove circuits).mapM (fun p => Except.ok p)

/-- A proving capability that fails exactly on batches containing circuit `10`:
models the external prover failing on the second batch of an 11-circuit input. -/
def prover_failing_on_10 : List Nat → Except String (List Nat) :=
  fun chunk => if 10 ∈ chunk then .error "ProvingFailure" else .ok chunk

theorem chunks_nil (bs : Nat) : chunks bs ([] : List α) = [] := rfl

theorem chunks_go_nil (bs fuel : Nat) : chunks_go bs fuel ([] : List α) = [] := by
  cases fuel <;> rfl

/-- Two sufficient fuels compute the same chunking. -/
theorem chunks_go_fuel (bs : Nat) (hbs : 0 < bs) :
    ∀ fuel₁ fuel₂ (l : List α), l.length ≤ fuel₁ → l.length ≤ fuel₂ →
      chunks_go bs fuel₁ l = chunks_go bs fuel₂ l := by
  intro fuel₁
  induction fuel₁ with
  | zero =>
    intro fuel₂ l h₁ _
    have : l = [] := List.eq_nil_of_length_eq_zero (Nat.le_zero.mp h₁)
    subst this
    simp [chunks_go_nil]
  | succ f₁ ih =>
    intro fuel₂ l h₁ h₂
    cases l with
    | nil => simp [chunks_go_nil]
    | cons x xs =>
      cases fuel₂ with
      | zero => simp at h₂
      | succ f₂ =>
        simp only [chunks_go]
        have hdrop : ((x :: xs).drop bs).length ≤ f₁ := by
          simp only [List.length_drop, List.length_cons]
          simp only [List.length_cons] at h₁
          omega
        have hdrop₂ : ((x :: xs).drop bs).length ≤ f₂ := by
          simp only [List.length_drop, List.length_cons]
          simp only [List.length_cons] at h₂
          omega
        rw [ih f₂ _ hdrop hdrop₂]

/-- Unfolding equation for `chunks` on a nonempty list. -/
theorem chunks_cons (bs : Nat) (hbs : 0 < bs) (x : α) (xs : List α) :
    chunks bs (x :: xs) = (x :: xs).take bs :: chunks bs ((x :: xs).drop bs) := by
  show chunks_go bs (x :: xs).length (x :: xs) = _
  simp only [List.length_cons, chunks_go]
  congr 1
  apply chunks_go_fuel bs hbs
  · simp only [List.length_drop, List.length_cons]; omega
  · exact Nat.le_refl _

/-- Concatenating the chunks gives back the input list. -/
theorem chunks_go_flatten (bs : Nat) (hbs : 0 < bs) :
    ∀ fuel (l : List α), l.length ≤ fuel → (chunks_go bs fuel l).flatten = l := by
  intro fuel
  induction fuel with
  | zero =>
    intro l h
    have : l = [] := List.eq_nil_of_length_eq_zero (Nat.le_zero.mp h)
    subst this; rfl
  | succ f ih =>
    intro l h
    cases l with
    | nil => rfl
    | cons x xs =>
      simp only [chunks_go, List.flatten_cons]
      rw [ih _ (by simp only [List.length_drop, List.length_cons];
                   simp only [List.length_cons] at h; omega)]
      exact List.take_append_drop bs (x :: xs)

theorem chunks_flatten (bs : Nat) (hbs : 0 < bs) (l : List α) :
    (chunks bs l).flatten = l :=
  chunks_go_flatten bs hbs l.length l (Nat.le_refl _)

/-- The number of chunks is the ceiling of `length / bs`. -/
theorem chunks_go_length (bs : Nat) (hbs : 0 < bs) :
    ∀ fuel (l : List α), l.length ≤ fuel →
      (chunks_go bs fuel l).length = (l.length + bs - 1) / bs := by
  intro fuel
  induction fuel with
  | zero =>
    intro l h
    have : l = [] := List.eq_nil_of_length_eq_zero (Nat.le_zero.mp h)
    subst this
    simp [chunks_go_nil, Nat.div_eq_of_lt (by omega : bs - 1 < bs)]
  | succ f ih =>
    intro l h
    cases l with
    | nil => simp [chunks_go_nil, Nat.div_eq_of_lt (by omega : bs - 1 < bs)]
    | cons x xs =>
      simp only [chunks_go, List.length_cons]
      rw [ih _ (by simp only [List.length_drop, List.length_cons];
                   simp only [List.length_cons] at h; omega)]
      simp only [List.length_drop, List.length_cons]
      have hn : xs.length + 1 + bs - 1 = (xs.length + 1 - 1) + bs := by omega
      rw [hn, Nat.add_div_right _ hbs]
      by_cases hle : xs.length + 1 ≤ bs
      · have h₁ : xs.length + 1 - bs = 0 := by omega
        rw [h₁, Nat.div_eq_of_lt (by omega : (0 : Nat) + bs - 1 < bs),
          Nat.div_eq_of_lt (by omega : xs.length + 1 - 1 < bs)]
      · have h₁ : xs.length + 1 - bs + bs - 1 = xs.length + 1 - 1 := by omega
        rw [h₁]

theorem chunks_length (bs : Nat) (hbs : 0 < bs) (l : List α) :
    (chunks bs l).length = (l.length + bs - 1) / bs :=
  chunks_go_length bs hbs l.length l (Nat.le_refl _)

/-- Every chunk except the last has exactly `bs` elements. -/
theorem chunks_go_dropLast (bs : Nat) (hbs : 0 < bs) :
    ∀ fuel (l : List α), l.length ≤ fuel →
      ∀ c ∈ (chunks_go bs fuel l).dropLast, c.length = bs := by
  intro fuel
  induction fuel with
  | zero =>
    intro l h
    have : l = [] := List.eq_nil_of_length_eq_zero (Nat.le_zero.mp h)
    subst this
    simp [chunks_go_nil]
  | succ f ih =>
    intro l h c hc
    cases l with
    | nil => simp [chunks_go_nil] at hc
    | cons x xs =>
      simp only [chunks_go] at hc
      rcases hrest : chunks_go bs f ((x :: xs).drop bs) with _ | ⟨r, rs⟩
      · rw [hrest] at hc
        simp at hc
      · rw [hrest] at hc
        have hdropne : (x :: xs).drop bs ≠ [] := by
          intro hnil
          rw [hnil, chunks_go_nil] at hrest
          exact List.noConfusion hrest
        have hlen : bs < (x :: xs).length := by
          by_contra hcon
          exact hdropne (List.drop_eq_nil_of_le (by omega))
        rw [List.dropLast_cons₂] at hc
        rcases List.mem_cons.mp hc with heq | hmem
        · subst heq
          simp only [List.length_take]
          omega
        · exact ih ((x :: xs).drop bs)
            (by simp only [List.length_drop, List.length_cons];
                simp only [List.length_cons] at h; omega) c (by rw [hrest]; exact hmem)

theorem chunks_dropLast (bs : Nat) (hbs : 0 < bs) (l : List α) :
    ∀ c ∈ (chunks bs l).dropLast, c.length = bs :=
  chunks_go_dropLast bs hbs l.length l (Nat.le_refl _)

/-- The chunking of a list is empty exactly when the list is. -/
theorem chunks_go_eq_nil (bs fuel : Nat) (l : List α) (h : chunks_go bs fuel l = []) :
    l = [] := by
  cases l with
  | nil => rfl
  | cons x xs =>
    cases fuel with
    | zero => exact List.noConfusion h
    | succ f => exact List.noConfusion h

/-- The last chunk has `length % bs` elements, or `bs` when `bs` divides the length. -/
theorem chunks_go_getLast (bs : Nat) (hbs : 0 < bs) :
    ∀ fuel (l : List α), l.length ≤ fuel → ∀ c, (chunks_go bs fuel l).getLast? = some c →
      c.length = if l.length % bs = 0 then bs else l.length % bs := by
  intro fuel
  induction fuel with
  | zero =>
    intro l h c hc
    have : l = [] := List.eq_nil_of_length_eq_zero (Nat.le_zero.mp h)
    subst this
    rw [chunks_go_nil] at hc
    exact Option.noConfusion hc
  | succ f ih =>
    intro l h c hc
    cases l with
    | nil =>
      rw [chunks_go_nil] at hc
      exact Option.noConfusion hc
    | cons x xs =>
      simp only [List.length_cons] at h
      simp only [chunks_go] at hc
      have hdroplen : ((x :: xs).drop bs).length = xs.length + 1 - bs := by
        simp only [List.length_drop, List.length_cons]
      rcases hrest : chunks_go bs f ((x :: xs).drop bs) with _ | ⟨r, rs⟩
      · rw [hrest] at hc
        simp only [List.getLast?_singleton, Option.some.injEq] at hc
        subst hc
        have hdropnil : (x :: xs).drop bs = [] := chunks_go_eq_nil bs f _ hrest
        have hlen : xs.length + 1 ≤ bs := by
          have := congrArg List.length hdropnil
          rw [hdroplen] at this
          simp only [List.length_nil] at this
          omega
        simp only [List.length_take, List.length_cons]
        have hmin : min bs (xs.length + 1) = xs.length + 1 := by omega
        rw [hmin]
        by_cases hmod : (xs.length + 1) % bs = 0
        · have heq : xs.length + 1 = bs :=
            Nat.le_antisymm hlen (Nat.le_of_dvd (by omega) (Nat.dvd_of_mod_eq_zero hmod))
          simp [hmod, heq]
        · have hne : xs.length + 1 ≠ bs := fun heq => hmod (by rw [heq, Nat.mod_self])
          have : (xs.length + 1) % bs = xs.length + 1 := Nat.mod_eq_of_lt (by omega)
          simp [hmod, this]
      · rw [hrest] at hc
        rw [List.getLast?_cons_cons] at hc
        have hdropne : (x :: xs).drop bs ≠ [] := by
          intro hnil
          rw [hnil, chunks_go_nil] at hrest
          exact List.noConfusion hrest
        have hlen : bs < xs.length + 1 := by
          by_contra hcon
          exact hdropne (List.drop_eq_nil_of_le (by simp only [List.length_cons]; omega))
        have hih := ih ((x :: xs).drop bs) (by rw [hdroplen]; omega) c
          (by rw [hrest]; exact hc)
        rw [hdroplen] at hih
        simp only [List.length_cons]
        have hmod : (xs.length + 1) % bs = (xs.length + 1 - bs) % bs := by
          conv_lhs => rw [(by omega : xs.length + 1 = (xs.length + 1 - bs) + bs)]
          rw [Nat.add_mod_right]
        rw [hmod]
        exact hih

theorem chunks_getLast (bs : Nat) (hbs : 0 < bs) (l : List α) :
    ∀ c, (chunks bs l).getLast? = some c →
      c.length = if l.length % bs = 0 then bs else l.length % bs :=
  chunks_go_getLast bs hbs l.length l (Nat.le_refl _)

/-- Flattening a list of singletons is the list of their contents. -/
theorem flatten_map_singleton (g : α → β) (L : List α) :
    (L.map (fun a => [g a])).flatten = L.map g := by
  induction L with
  | nil => rfl
  | cons x xs ih => simp [ih]

/-- C1. In the batched proof assembler, a failing batch does NOT abort the call:
the `flat_map` over the prover's `Result` (`snark-proof.rs` lines 204-213) drops
the `Err` of a failed batch via `Result`'s `IntoIterator`, so `snark_proof`
returns `Ok` proof bytes that silently omit the failed batch. Concretely, for 11
circuits (batches of sizes 10 and 1, `GROTH16_BATCH_SIZE = 10`) and a prover
failing exactly on the second batch, the call succeeds and returns only the 10
proofs of the first batch. -/
theorem snark_proof_silently_drops_failed_batch :
    prover_failing_on_10 ((List.range 11).drop 10) = .error "ProvingFailure"
    ∧ snark_proof_result prover_failing_on_10 (List.range 11) = .ok (List.range 10)
    ∧ (List.range 11).length ≠ (List.range 10).length := by
  refine ⟨rfl, rfl, by decide⟩

/-- C6. The batched proof assembler splits the `N` input circuits into
`⌈N / batch_size⌉` proving calls: every batch except the last has exactly
`batch_size` circuits, the last has `N mod batch_size` (or `batch_size` when
`batch_size` divides `N`), and when every batch proves successfully (the
prover mapping each circuit to its proof in order), the concatenated output
is exactly the per-circuit proofs in the input order. -/
theorem snark_proof_batching (bs : Nat) (hbs : 0 < bs)
    (prove : List Nat → Except String (List Nat)) (f : Nat → Nat)
    (circuits : List Nat) (hprove : ∀ chunk, prove chunk = .ok (chunk.map f)) :
    (chunks bs circuits).length = (circuits.length + bs - 1) / bs
    ∧ (∀ c ∈ (chunks bs circuits).dropLast, c.length = bs)
    ∧ (∀ c, (chunks bs circuits).getLast? = some c →
        c.length = if circuits.length % bs = 0 then bs else circuits.length % bs)
    ∧ groth_proofs bs prove circuits = circuits.map f := by
  refine ⟨chunks_length bs hbs circuits, chunks_dropLast bs hbs circuits,
    chunks_getLast bs hbs circuits, ?_⟩
  unfold groth_proofs
  have hmap : (chunks bs circuits).map (fun chunk => exceptToList (prove chunk))
      = (chunks bs circuits).map (fun chunk => [chunk.map f]) := by
    apply List.map_congr_left
    intro c _
    rw [hprove c]
    rfl
  rw [hmap, flatten_map_singleton (fun chunk => chunk.map f) (chunks bs circuits),
    ← List.map_flatten, chunks_flatten bs hbs circuits]

/-- Witness for C6, following spec scenario 4: 10 circuits with batch size 3
yield 4 proving calls of sizes 3, 3, 3, 1 and an order-preserving output. -/
theorem snark_proof_batching_witness :
    (chunks 3 (List.range 10)).length = 4
    ∧ (∀ c ∈ (chunks 3 (List.range 10)).dropLast, c.length = 3)
    ∧ (∀ c, (chunks 3 (List.range 10)).getLast? = some c → c.length = 1)
    ∧ groth_proofs 3 (fun chunk => (.ok (chunk.map (fun n => n + 100)) :
          Except String (List Nat)))
        (List.range 10) = (List.range 10).map (fun n => n + 100) := by
  have h := snark_proof_batching 3 (by decide)
    (fun chunk => .ok (chunk.map (fun n => n + 100))) (fun n => n + 100)
    (List.range 10) (fun chunk => rfl)
  exact ⟨h.1, h.2.1, fun c hc => h.2.2.1 c hc, h.2.2.2⟩

/-- Embedding of `ChallengesParameters` (`challenges.rs` lines 10-22): the JSON
input of the interactive-challenges binary. Byte arrays are `List Nat`. -/
structure ChallengesParameters where
  num_challenges : Nat
  num_partitions : Nat
  replica_id : List Nat
  sector_size : Nat
  seed : List Nat

/-- Modelled from the spec: `InteractivePoRep::derive` lives in
`storage-proofs-porep/src/stacked/vanilla/challenges.rs`, which is not among
the shown sources (only that crate's benches are). Per spec section 4.1, the
interactive variant derives each partition's subset independently with
`(replica_id, seed, partition_index)` as domain-separated input to a keyed
hash, and the shared sampling policy produces candidate index
`hash(... ‖ counter) mod sector_nodes`, incrementing the counter until the
target count is reached. The keyed hash (an external collaborator, spec
section 6) is the abstract parameter `hash`; the domain tag is folded into it. -/
def InteractivePoRep.derive (hash : List Nat → Nat) (sector_nodes : Nat)
    (replica_id : List Nat) (seed : List Nat) (k : Nat) (count : Nat) : List Nat :=
  (List.range count).map
    (fun counter => hash (replica_id ++ seed ++ [k, counter]) % sector_nodes)

/-- Embedding of `main` of `challenges.rs` (lines 29-64): asserts that
`num_challenges` is divisible by `num_partitions` (a Rust `assert_eq!`, and the
`%` itself panics when `num_partitions = 0`), computes
`sector_nodes = sector_size / NODE_SIZE`, then concatenates the per-partition
derivations for `k = 0, ..., num_partitions - 1` via `flat_map`. A panic is
modelled as `Except.error`. -/
def challenges_main (hash : List Nat → Nat) (p : ChallengesParameters) :
    Except String (List Nat) :=
  if p.num_partitions = 0 then
    .error "attempt to calculate the remainder with a divisor of zero"
  else if p.num_challenges % p.num_partitions ≠ 0 then
    .error "Number of challenges must be divisible by the number of partitions"
  else
    .ok (((List.range p.num_partitions).map
      (fun k => InteractivePoRep.derive hash (sector_nodes_of p.sector_size)
        p.replica_id p.seed k (p.num_challenges / p.num_partitions))).flatten)

/-- Embedding of `ChallengesSynthParameters` (`challenges-synth.rs` lines 11-23). -/
structure ChallengesSynthParameters where
  comm_r : List Nat
  num_challenges : Nat
  replica_id : List Nat
  sector_size : Nat
  seed : List Nat

/-- Modelled from the spec: `SynthChallenges` and its `gen_porep_challenges`
live in `storage-proofs-porep/src/stacked/vanilla/challenges.rs`, which is not
among the shown sources. Per spec section 4.1 the synthetic variant takes no
seed: it produces `min(sector_nodes, count)` indices using `(replica_id,
comm_r)` as the only domain separators. The binary does pass its `seed`
parameter to the call, so the model accepts the argument and, per the spec,
ignores it. -/
def SynthChallenges.gen_porep_challenges (hash : List Nat → Nat)
    (sector_nodes : Nat) (replica_id : List Nat) (comm_r : List Nat)
    (count : Nat) ( seed : List Nat) : List Nat :=
  (List.range (min sector_nodes count)).map
    (fun counter => hash (replica_id ++ comm_r ++ [counter]) % sector_nodes)

/-- Embedding of `main` of `challenges-synth.rs` (lines 30-50): computes
`sector_nodes = sector_size / NODE_SIZE` and derives the synthetic challenges
from `(replica_id, comm_r, num_challenges)`, passing the seed through. -/
def challenges_synth_main (hash : List Nat → Nat) (p : ChallengesSynthParameters) :
    List Nat :=
  SynthChallenges.gen_porep_challenges hash (sector_nodes_of p.sector_size)
    p.replica_id p.comm_r p.num_challenges p.seed

/-- C2. Synthetic challenge derivation is seed-independent: with
`(sector_nodes, replica_id, comm_r, num_challenges)` fixed, the synthetic
challenge sequence is identical for any two seeds supplied to the operation. -/
theorem challenges_synth_seed_independent (hash : List Nat → Nat)
    (comm_r replica_id : List Nat) (num_challenges sector_size : Nat)
    (seed₁ seed₂ : List Nat) :
    challenges_synth_main hash ⟨comm_r, num_challenges, replica_id, sector_size, seed₁⟩
      = challenges_synth_main hash ⟨comm_r, num_challenges, replica_id, sector_size, seed₂⟩ :=
  rfl

/-- C4 counterexample. The claim says a `sector_size` that is not a multiple of
the node size fails with a configuration error before derivation; but
`challenges.rs` line 42 just computes `sector_size / NODE_SIZE`. At
`sector_size = 65` (not a multiple of 32) the binary succeeds, silently
deriving over the truncated `sector_nodes = 2`. -/
theorem challenges_accepts_unaligned_sector_size :
    65 % NODE_SIZE ≠ 0
    ∧ sector_nodes_of 65 = 2
    ∧ challenges_main (fun _ => 0) ⟨1, 1, [7], 65, [9]⟩ = .ok [0] := by
  refine ⟨by decide, rfl, rfl⟩

/-- C4 amended. No sector-size alignment check exists: whenever the partition
count is nonzero and divides the challenge count, the operation succeeds even
for a `sector_size` that is not a multiple of `NODE_SIZE`, silently using the
floored `sector_nodes_of sector_size = sector_size / NODE_SIZE` for derivation. -/
theorem challenges_sector_size_silently_floored (hash : List Nat → Nat)
    (p : ChallengesParameters) (hp : 0 < p.num_partitions)
    (hdvd : p.num_challenges % p.num_partitions = 0)
    (hmod : p.sector_size % NODE_SIZE ≠ 0) :
    challenges_main hash p = .ok (((List.range p.num_partitions).map
      (fun k => InteractivePoRep.derive hash (sector_nodes_of p.sector_size)
        p.replica_id p.seed k (p.num_challenges / p.num_partitions))).flatten) := by
  unfold challenges_main
  rw [if_neg (by omega), if_neg (by simp [hdvd])]

/-- Witness for the C4 amended theorem at `sector_size = 65`. -/
theorem challenges_sector_size_silently_floored_witness :
    challenges_main (fun l => l.sum) ⟨2, 1, [7], 65, [9]⟩
      = .ok (((List.range 1).map
        (fun k => InteractivePoRep.derive (fun l => l.sum) (sector_nodes_of 65)
          [7] [9] k 2)).flatten) :=
  challenges_sector_size_silently_floored (fun l => l.sum) ⟨2, 1, [7], 65, [9]⟩
    (by decide) (by decide) (by decide)

/-- C5. Interactive derivation fails (the `assert_eq!` at `challenges.rs`
lines 35-39, reached before any derivation) exactly when the challenge count
is not divisible by the partition count; when divisible, the call succeeds and
every partition contributes exactly `num_challenges / num_partitions`
challenge indices. -/
theorem challenges_divisibility (hash : List Nat → Nat)
    (p : ChallengesParameters) (hp : 0 < p.num_partitions) :
    (p.num_challenges % p.num_partitions ≠ 0 →
      challenges_main hash p
        = .error "Number of challenges must be divisible by the number of partitions")
    ∧ (p.num_challenges % p.num_partitions = 0 →
      ∃ per_partition : List (List Nat),
        challenges_main hash p = .ok per_partition.flatten
        ∧ per_partition.length = p.num_partitions
        ∧ ∀ cs ∈ per_partition, cs.length = p.num_challenges / p.num_partitions) := by
  constructor
  · intro hnd
    unfold challenges_main
    rw [if_neg (by omega), if_pos hnd]
  · intro hdvd
    refine ⟨(List.range p.num_partitions).map
      (fun k => InteractivePoRep.derive hash (sector_nodes_of p.sector_size)
        p.replica_id p.seed k (p.num_challenges / p.num_partitions)), ?_, ?_, ?_⟩
    · unfold challenges_main
      rw [if_neg (by omega), if_neg (by simp [hdvd])]
    · rw [List.length_map, List.length_range]
    · intro cs hcs
      rcases List.mem_map.mp hcs with ⟨k, _, rfl⟩
      unfold InteractivePoRep.derive
      rw [List.length_map, List.length_range]

/-- Witness for C5 at spec scenario 2 shape: 8 challenges over 2 partitions of
a 1024-node sector (sector size 32768). -/
theorem challenges_divisibility_witness :
    ∃ per_partition : List (List Nat),
      challenges_main (fun l => l.sum) ⟨8, 2, [1], 32768, [2]⟩ = .ok per_partition.flatten
      ∧ per_partition.length = 2
      ∧ ∀ cs ∈ per_partition, cs.length = 4 :=
  (challenges_divisibility (fun l => l.sum) ⟨8, 2, [1], 32768, [2]⟩ (by decide)).2
    (by decide)

/-- C7. On divisible inputs the interactive operation returns the concatenation,
for `k = 0, 1, ..., num_partitions - 1` in increasing order, of the
per-partition ChallengeSets, each of length `num_challenges / num_partitions`,
and the full output has exactly `num_challenges` indices. -/
theorem challenges_concatenation (hash : List Nat → Nat)
    (p : ChallengesParameters) (hp : 0 < p.num_partitions)
    (hdvd : p.num_challenges % p.num_partitions = 0) :
    challenges_main hash p = .ok (((List.range p.num_partitions).map
      (fun k => InteractivePoRep.derive hash (sector_nodes_of p.sector_size)
        p.replica_id p.seed k (p.num_challenges / p.num_partitions))).flatten)
    ∧ ∀ cs, challenges_main hash p = .ok cs → cs.length = p.num_challenges := by
  have hmain : challenges_main hash p = .ok (((List.range p.num_partitions).map
      (fun k => InteractivePoRep.derive hash (sector_nodes_of p.sector_size)
        p.replica_id p.seed k (p.num_challenges / p.num_partitions))).flatten) := by
    unfold challenges_main
    rw [if_neg (by omega), if_neg (by simp [hdvd])]
  refine ⟨hmain, ?_⟩
  intro cs hcs
  rw [hmain] at hcs
  have hcs' := Except.ok.inj hcs
  subst hcs'
  rw [List.length_flatten]
  have hconst : ((List.range p.num_partitions).map
      (fun k => InteractivePoRep.derive hash (sector_nodes_of p.sector_size)
        p.replica_id p.seed k (p.num_challenges / p.num_partitions))).map List.length
      = (List.range p.num_partitions).map
          (fun _ => p.num_challenges / p.num_partitions) := by
    rw [List.map_map]
    apply List.map_congr_left
    intro k _
    simp only [Function.comp_apply, InteractivePoRep.derive, List.length_map,
      List.length_range]
  rw [hconst, List.map_const', List.sum_replicate, List.length_range, smul_eq_mul]
  rw [Nat.mul_div_cancel' (Nat.dvd_of_mod_eq_zero hdvd)]

/-- Witness for C7: on a concrete input (8 challenges, 2 partitions, 1024-node
sector) the operation returns the in-order concatenation of the two
per-partition ChallengeSets, and its length is 8. -/
theorem challenges_concatenation_witness :
    challenges_main (fun l => l.sum) ⟨8, 2, [3], 32768, [5]⟩
      = .ok (((List.range 2).map
          (fun k => InteractivePoRep.derive (fun l => l.sum) (sector_nodes_of 32768)
            [3] [5] k 4)).flatten)
    ∧ (((List.range 2).map
          (fun k => InteractivePoRep.derive (fun l => l.sum) (sector_nodes_of 32768)
            [3] [5] k 4)).flatten).length = 8 := by
  have h := challenges_concatenation (fun l => l.sum) ⟨8, 2, [3], 32768, [5]⟩
    (by decide) (by decide)
  exact ⟨h.1, h.2 _ h.1⟩

/-- C8. Challenge derivation is deterministic and stateless: the output of the
interactive operation is a function of exactly
`(num_challenges, num_partitions, replica_id, sector_size, seed)` (with the
keyed hash fixed), and the synthetic operation likewise of its inputs — two
parameter records agreeing on those fields give identical ChallengeSets; no
hidden mutable state enters the computation. -/
theorem challenges_deterministic (hash : List Nat → Nat)
    (p q : ChallengesParameters) (r s : ChallengesSynthParameters)
    (hpq : p.num_challenges = q.num_challenges ∧ p.num_partitions = q.num_partitions
      ∧ p.replica_id = q.replica_id ∧ p.sector_size = q.sector_size ∧ p.seed = q.seed)
    (hrs : r.comm_r = s.comm_r ∧ r.num_challenges = s.num_challenges
      ∧ r.replica_id = s.replica_id ∧ r.sector_size = s.sector_size
      ∧ r.seed = s.seed) :
    challenges_main hash p = challenges_main hash q
    ∧ challenges_synth_main hash r = challenges_synth_main hash s := by
  obtain ⟨h1, h2, h3, h4, h5⟩ := hpq
  obtain ⟨g1, g2, g3, g4, g5⟩ := hrs
  cases p; cases q; cases r; cases s
  simp only at h1 h2 h3 h4 h5 g1 g2 g3 g4 g5
  subst h1; subst h2; subst h3; subst h4; subst h5
  subst g1; subst g2; subst g3; subst g4; subst g5
  exact ⟨rfl, rfl⟩

/-- Witness for C8: two invocations on the identical concrete inputs agree. -/
theorem challenges_deterministic_witness :
    challenges_main (fun l => l.sum) ⟨4, 2, [1], 2048, [2]⟩
      = challenges_main (fun l => l.sum) ⟨4, 2, [1], 2048, [2]⟩
    ∧ challenges_synth_main (fun l => l.sum) ⟨[3], 4, [1], 2048, [2]⟩
      = challenges_synth_main (fun l => l.sum) ⟨[3], 4, [1], 2048, [2]⟩ :=
  challenges_deterministic (fun l => l.sum) ⟨4, 2, [1], 2048, [2]⟩
    ⟨4, 2, [1], 2048, [2]⟩ ⟨[3], 4, [1], 2048, [2]⟩ ⟨[3], 4, [1], 2048, [2]⟩
    ⟨rfl, rfl, rfl, rfl, rfl⟩ ⟨rfl, rfl, rfl, rfl, rfl⟩

/-- C9. Range validity: as long as the sector has at least one node, every
index derived by either variant (interactive per-partition derivation, or the
synthetic superset) lies in `[0, sector_nodes)`, for every hash, replica id,
commitment, seed, partition index and count — the shared sampling policy
reduces every candidate `mod sector_nodes`. -/
theorem derived_challenges_in_range (hash : List Nat → Nat) (sector_nodes : Nat)
    (replica_id seed comm_r : List Nat) (k count : Nat)
    (hsn : 0 < sector_nodes) :
    (∀ x ∈ InteractivePoRep.derive hash sector_nodes replica_id seed k count,
      x < sector_nodes)
    ∧ (∀ x ∈ SynthChallenges.gen_porep_challenges hash sector_nodes replica_id
        comm_r count seed, x < sector_nodes) := by
  constructor
  · intro x hx
    rcases List.mem_map.mp hx with ⟨counter, _, rfl⟩
    exact Nat.mod_lt _ hsn
  · intro x hx
    rcases List.mem_map.mp hx with ⟨counter, _, rfl⟩
    exact Nat.mod_lt _ hsn

/-- Witness for C9 at a concrete 64-node sector. -/
theorem derived_challenges_in_range_witness :
    (∀ x ∈ InteractivePoRep.derive (fun l => l.sum) 64 [1] [2] 0 8, x < 64)
    ∧ (∀ x ∈ SynthChallenges.gen_porep_challenges (fun l => l.sum) 64 [1] [3] 8 [2],
        x < 64) :=
  derived_challenges_in_range (fun l => l.sum) 64 [1] [2] [3] 0 8 (by decide)

/-- Embedding of `DEFAULT_SYNTH_CHALLENGE_COUNT` (re-declared in
`merkle-proofs-synth-count.rs` line 14 as `1 << 18`, imported from
`storage_proofs_porep::stacked` in `default-values.rs`). -/
def DEFAULT_SYNTH_CHALLENGE_COUNT : Nat := 2 ^ 18

/-- Embedding of `default-values.rs` lines 59-60: the reported default
synthetic challenge count is `min(sector_nodes, DEFAULT_SYNTH_CHALLENGE_COUNT)`. -/
def default_values_num_synth_challenges (sector_size : Nat) : Nat :=
  min (sector_nodes_of sector_size) DEFAULT_SYNTH_CHALLENGE_COUNT

/-- Embedding of the index range `0..DEFAULT_SYNTH_CHALLENGE_COUNT` passed to
`SynthProofs::read` by `unique_nodes` (`merkle-proofs-synth-count.rs` lines
48-53): the range is a constant, taking no account of the sector size (the
`sector_size` argument only feeds the tree-shape parameter of the decoder). -/
def unique_nodes_read_range (sector_size : Nat) : Nat × Nat :=
  (0, DEFAULT_SYNTH_CHALLENGE_COUNT)

/-- Number of synthetic store records the counting operation processes: the
length of the index range handed to `SynthProofs::read`. -/
def unique_nodes_num_records (sector_size : Nat) : Nat :=
  (unique_nodes_read_range sector_size).2 - (unique_nodes_read_range sector_size).1

/-- C3 counterexample. For a 2048-byte sector (64 nodes, below the `2^18`
default), the default-value report caps the superset at `64 = sector_nodes`,
but the synthetic-store counting operation still processes `2^18` records:
the cardinality is NOT `min(sector_nodes, 2^18)` for every operation. -/
theorem synth_count_not_capped :
    default_values_num_synth_challenges 2048 = 64
    ∧ sector_nodes_of 2048 = 64
    ∧ unique_nodes_num_records 2048 = 262144
    ∧ unique_nodes_num_records 2048 ≠ min (sector_nodes_of 2048) (2 ^ 18) := by
  refine ⟨rfl, rfl, rfl, by decide⟩

/-- C3 amended. The default-value reporting operation computes the synthetic
superset cardinality as `min(sector_nodes, 2^18)`; the synthetic-store counting
operation instead always processes a fixed `2^18` records, so whenever
`sector_nodes < 2^18` the two disagree and the counting operation is not
capped at `sector_nodes`. -/
theorem synth_default_capped_but_count_fixed (sector_size : Nat) :
    default_values_num_synth_challenges sector_size
      = min (sector_nodes_of sector_size) DEFAULT_SYNTH_CHALLENGE_COUNT
    ∧ unique_nodes_num_records sector_size = DEFAULT_SYNTH_CHALLENGE_COUNT
    ∧ (sector_nodes_of sector_size < DEFAULT_SYNTH_CHALLENGE_COUNT →
        default_values_num_synth_challenges sector_size = sector_nodes_of sector_size
        ∧ unique_nodes_num_records sector_size
            ≠ default_values_num_synth_challenges sector_size) := by
  refine ⟨rfl, rfl, fun hlt => ⟨?_, ?_⟩⟩
  · exact min_eq_left (Nat.le_of_lt hlt)
  · intro heq
    have h1 : unique_nodes_num_records sector_size = DEFAULT_SYNTH_CHALLENGE_COUNT := rfl
    have h2 : default_values_num_synth_challenges sector_size
        ≤ sector_nodes_of sector_size := min_le_left _ _
    omega

/-- Witness for the C3 amended theorem at a 2048-byte sector. -/
theorem synth_default_capped_but_count_fixed_witness :
    default_values_num_synth_challenges 2048 = sector_nodes_of 2048
    ∧ unique_nodes_num_records 2048 ≠ default_values_num_synth_challenges 2048 :=
  (synth_default_capped_but_count_fixed 2048).2.2 (by decide)

/-- Embedding of `next_multiple_of` (`default-values.rs` lines 27-32). -/
def next_multiple_of (base multiple : Nat) : Nat :=
  match base % multiple with
  | 0 => base
  | rest => base + (multiple - rest)

/-- Embedding of `default-values.rs` lines 55-58: the reported default PoRep
challenge count is the minimum challenge count for the sector size rounded up
to the next multiple of the partition count. The per-sector-size lookup tables
(`POREP_MINIMUM_CHALLENGES`, `POREP_PARTITIONS`, from the `filecoin-proofs`
crate, not among the shown sources) enter as the two arguments. -/
def default_values_num_porep_challenges (min_challenges partitions : Nat) : Nat :=
  next_multiple_of min_challenges partitions

/-- C10. For a nonzero partition count (every table entry is nonzero; a zero
entry would make the Rust `%` panic), the reported default PoRep challenge
count is the least multiple of the partition count that is at least the
minimum challenge count; in particular it is divisible by the partition count,
satisfying the interactive divisibility precondition checked by
`challenges_main`. -/
theorem default_porep_challenges_least_multiple (min_challenges partitions : Nat)
    (hp : 0 < partitions) :
    partitions ∣ default_values_num_porep_challenges min_challenges partitions
    ∧ min_challenges ≤ default_values_num_porep_challenges min_challenges partitions
    ∧ (∀ m, partitions ∣ m → min_challenges ≤ m →
        default_values_num_porep_challenges min_challenges partitions ≤ m)
    ∧ default_values_num_porep_challenges min_challenges partitions % partitions = 0 := by
  unfold default_values_num_porep_challenges next_multiple_of
  split
  · rename_i hrest
    exact ⟨Nat.dvd_of_mod_eq_zero hrest, Nat.le_refl _, fun m _ hle => hle, hrest⟩
  · rename_i r hrest
    have hrne : min_challenges % partitions ≠ 0 := hrest
    have hrlt : min_challenges % partitions < partitions := Nat.mod_lt min_challenges hp
    have hdm := Nat.div_add_mod min_challenges partitions
    have hval : min_challenges + (partitions - min_challenges % partitions)
        = partitions * (min_challenges / partitions + 1) := by
      rw [Nat.mul_add, Nat.mul_one]
      omega
    have hdvd : partitions ∣ min_challenges + (partitions - min_challenges % partitions) :=
      ⟨min_challenges / partitions + 1, hval⟩
    refine ⟨hdvd, by omega, ?_, ?_⟩
    · intro m hm hle
      rcases hm with ⟨q, rfl⟩
      have hqlt : min_challenges / partitions < q := by
        by_contra hcon
        have hq : q ≤ min_challenges / partitions := by omega
        have : partitions * q ≤ partitions * (min_challenges / partitions) :=
          Nat.mul_le_mul_left partitions hq
        omega
      have : partitions * (min_challenges / partitions + 1) ≤ partitions * q :=
        Nat.mul_le_mul_left partitions hqlt
      omega
    · rcases hdvd with ⟨c, hc⟩
      rw [hc]
      exact Nat.mul_mod_right _ _

/-- Witness for C10 at the production 32 GiB table entry: minimum challenge
count 176, partition count 10, reported default 180. -/
theorem default_porep_challenges_least_multiple_witness :
    (10 : Nat) ∣ default_values_num_porep_challenges 176 10
    ∧ 176 ≤ default_values_num_porep_challenges 176 10
    ∧ default_values_num_porep_challenges 176 10 % 10 = 0
    ∧ default_values_num_porep_challenges 176 10 = 180 := by
  have h := default_porep_challenges_least_multiple 176 10 (by decide)
  exact ⟨h.1, h.2.1, h.2.2.2, by decide⟩
